import Mathlib

/-!
Verification of the CRM record store (`src/crm-v1.py`, `src/crm-v3.py`).

The store is a list of customer rows kept in memory (`st.session_state.df`)
and persisted wholesale to a CSV file.  We embed:

  * the CSV cell layer (decimal numerals, `YYYY-MM-DD` dates, the
    reader's NA-sentinel handling) — modelling `pd.to_numeric(errors="coerce")`,
    `pd.to_datetime(errors="coerce")` and `astype(str)`;
  * `load_data` / `save_data`;
  * the add / edit / delete operations and the bulk-import pipeline of the
    sidebar uploader;
  * the aggregate computations of the Dashboard and Reports pages
    (`value_counts`, `sum`, the `groupby("Month")` sales trend, `nlargest`).

Cells of the persisted file are modelled at the level of individual string
cells: CSV quoting/escaping (which is lossless) is abstracted away.
`pd.to_numeric` is modelled on the `-`-signed integer numerals that
`save_data` writes; cells pandas could read differently (float, exponent or
blank-padded numerals, NA sentinels reformatted by `astype(str)`, columns
whose every cell is numeric or boolean and which `read_csv` therefore
retypes) are fenced off by explicit hypotheses (`readerMayCoerce`,
`TextOk`, `CellClean`) on every theorem that quantifies over arbitrary cells,
so each proved statement ranges only over inputs where this model and the
program agree.
-/

namespace CRM

/-! ### Decimal numerals (model of `to_numeric` / Python `str(int)`) -/

/-- The ten decimal digit characters. -/
def digitChar (d : Nat) : Char :=
  match d with
  | 0 => '0' | 1 => '1' | 2 => '2' | 3 => '3' | 4 => '4'
  | 5 => '5' | 6 => '6' | 7 => '7' | 8 => '8' | 9 => '9'
  | _ => '*'

/-- Value of a decimal digit character, `none` for non-digits. -/
def digitVal? (c : Char) : Option Nat :=
  if 48 ≤ c.toNat ∧ c.toNat ≤ 57 then some (c.toNat - 48) else none

/-- Little-endian decimal digits of `n`, with `fuel` bounding the recursion
(`natDigits` passes `n` itself, which always suffices). -/
def natDigitsAux : Nat → Nat → List Nat
  | _, 0 => []
  | 0, _ + 1 => []
  | fuel + 1, n + 1 => ((n + 1) % 10) :: natDigitsAux fuel ((n + 1) / 10)

/-- Little-endian decimal digits of `n` (empty for `0`). -/
def natDigits (n : Nat) : List Nat := natDigitsAux n n

/-- Value of a little-endian digit list. -/
def fromDigitsLE : List Nat → Nat
  | [] => 0
  | d :: ds => d + 10 * fromDigitsLE ds

/-- Most-significant-first character rendering of `n` (empty for `0`). -/
def natReprChars (n : Nat) : List Char := (natDigits n).reverse.map digitChar

/-- `n` rendered in decimal, zero-padded on the left to at least `k`
characters (model of `strftime` field padding such as `%Y`/`%m`/`%d`). -/
def padChars (k n : Nat) : List Char :=
  List.replicate (k - (natReprChars n).length) '0' ++ natReprChars n

/-- Decimal rendering of a nonnegative integer, `"0"` included. -/
def natReprStr (n : Nat) : List Char :=
  if n = 0 then ['0'] else natReprChars n

/-- Decimal rendering of an integer, as Python's `str` writes it into a CSV
cell. -/
def intReprChars (i : Int) : List Char :=
  if i < 0 then '-' :: natReprStr i.natAbs else natReprStr i.toNat

/-- Parse every character as a digit, most significant first. -/
def parseDigits? : List Char → Option (List Nat)
  | [] => some []
  | c :: cs =>
    match digitVal? c, parseDigits? cs with
    | some d, some ds => some (d :: ds)
    | _, _ => none

/-- Parse a nonempty all-digit character list as a natural number. -/
def parseNatChars? (cs : List Char) : Option Nat :=
  match cs, parseDigits? cs with
  | _ :: _, some ds => some (fromDigitsLE ds.reverse)
  | _, _ => none

/-- Parse an optionally `-`-signed decimal integer numeral — the exact cell
format `save_data` writes, on which `pd.to_numeric(cell, errors="coerce")`
yields the same integer.  `to_numeric` additionally reads float, exponent,
`+`-signed and blank-padded numerals (truncated by the later `astype(int)`);
those are outside this parser, and every theorem over arbitrary uploaded
cells carries a `readerMayCoerce`/`CellClean` hypothesis excluding them. -/
def parseIntChars? : List Char → Option Int
  | [] => none
  | c :: cs =>
    if c = '-' then (parseNatChars? cs).map (fun n => -(n : Int))
    else (parseNatChars? (c :: cs)).map (fun n => (n : Int))

/-- String front end for the integer parser. -/
def parseInt? (s : String) : Option Int := parseIntChars? s.data

/-! Round-trip lemmas for the numeral layer. -/

theorem digitVal?_digitChar {d : Nat} (h : d < 10) : digitVal? (digitChar d) = some d := by
  interval_cases d <;> rfl

theorem natDigitsAux_lt (fuel n : Nat) : ∀ d ∈ natDigitsAux fuel n, d < 10 := by
  induction fuel generalizing n with
  | zero => cases n <;> simp [natDigitsAux]
  | succ f ih =>
    cases n with
    | zero => simp [natDigitsAux]
    | succ m =>
      intro d hd
      simp only [natDigitsAux, List.mem_cons] at hd
      rcases hd with h | h
      · exact h ▸ Nat.mod_lt _ (by norm_num)
      · exact ih _ _ h

theorem fromDigitsLE_natDigitsAux {fuel n : Nat} (h : n ≤ fuel) :
    fromDigitsLE (natDigitsAux fuel n) = n := by
  induction fuel generalizing n with
  | zero =>
    interval_cases n
    rfl
  | succ f ih =>
    cases n with
    | zero => rfl
    | succ m =>
      have hdiv : (m + 1) / 10 ≤ f := by
        have : (m + 1) / 10 < m + 1 := Nat.div_lt_self (Nat.succ_pos m) (by norm_num)
        omega
      simp only [natDigitsAux, fromDigitsLE, ih hdiv]
      omega

theorem fromDigitsLE_natDigits (n : Nat) : fromDigitsLE (natDigits n) = n :=
  fromDigitsLE_natDigitsAux le_rfl

theorem natDigits_lt (n : Nat) : ∀ d ∈ natDigits n, d < 10 := natDigitsAux_lt n n

theorem parseDigits?_map_digitChar {ds : List Nat} (h : ∀ d ∈ ds, d < 10) :
    parseDigits? (ds.map digitChar) = some ds := by
  induction ds with
  | nil => rfl
  | cons d ds ih =>
    have hd : d < 10 := h d (List.mem_cons_self d ds)
    have hds : ∀ x ∈ ds, x < 10 := fun x hx => h x (List.mem_cons_of_mem d hx)
    simp [parseDigits?, digitVal?_digitChar hd, ih hds]

theorem parseDigits?_append {a b : List Char} {da db : List Nat}
    (ha : parseDigits? a = some da) (hb : parseDigits? b = some db) :
    parseDigits? (a ++ b) = some (da ++ db) := by
  induction a generalizing da with
  | nil =>
    simp only [parseDigits?] at ha
    cases ha
    simpa using hb
  | cons c cs ih =>
    simp only [parseDigits?] at ha ⊢
    cases hv : digitVal? c with
    | none => rw [hv] at ha; exact absurd ha (by simp)
    | some d =>
      rw [hv] at ha
      cases hcs : parseDigits? cs with
      | none => rw [hcs] at ha; exact absurd ha (by simp)
      | some ds =>
        rw [hcs] at ha
        simp only [Option.some.injEq] at ha
        cases ha
        have hab := ih hcs
        simp [List.cons_append, parseDigits?, hv, hab]

theorem parseDigits?_replicate_zero (k : Nat) :
    parseDigits? (List.replicate k '0') = some (List.replicate k 0) := by
  induction k with
  | zero => rfl
  | succ m ih => simp [List.replicate_succ, parseDigits?, digitVal?, ih]

theorem fromDigitsLE_append_replicate_zero (ds : List Nat) (k : Nat) :
    fromDigitsLE (ds ++ List.replicate k 0) = fromDigitsLE ds := by
  induction ds with
  | nil =>
    simp only [List.nil_append]
    induction k with
    | zero => rfl
    | succ m ih => simp [List.replicate_succ, fromDigitsLE, ih]
  | cons d t ih => simp [fromDigitsLE, ih]

theorem natDigits_ne_nil {n : Nat} (hn : n ≠ 0) : natDigits n ≠ [] := by
  intro hnil
  have := fromDigitsLE_natDigits n
  rw [hnil] at this
  simp [fromDigitsLE] at this
  omega

theorem parseDigits?_natReprChars (n : Nat) :
    parseDigits? (natReprChars n) = some (natDigits n).reverse := by
  unfold natReprChars
  exact parseDigits?_map_digitChar (by intro d hd; exact natDigits_lt n d (List.mem_reverse.mp hd))

theorem parseNatChars?_padChars (k n : Nat) (hk : 1 ≤ k) :
    parseNatChars? (padChars k n) = some n := by
  have happ : parseDigits? (padChars k n) =
      some (List.replicate (k - (natReprChars n).length) 0 ++ (natDigits n).reverse) :=
    parseDigits?_append (parseDigits?_replicate_zero _) (parseDigits?_natReprChars n)
  have hne : padChars k n ≠ [] := by
    intro hnil
    have := congrArg List.length hnil
    simp only [padChars, List.length_append, List.length_replicate, List.length_nil] at this
    omega
  unfold parseNatChars?
  cases hc : padChars k n with
  | nil => exact absurd hc hne
  | cons c cs =>
    rw [hc] at happ
    rw [happ]
    simp only [List.reverse_append, List.reverse_reverse, List.reverse_replicate]
    rw [fromDigitsLE_append_replicate_zero, fromDigitsLE_natDigits]

theorem parseNatChars?_natReprStr (n : Nat) : parseNatChars? (natReprStr n) = some n := by
  unfold natReprStr
  by_cases hn : n = 0
  · subst hn; rfl
  · rw [if_neg hn]
    have happ := parseDigits?_natReprChars n
    have hne : natReprChars n ≠ [] := by
      unfold natReprChars
      simp [natDigits_ne_nil hn]
    unfold parseNatChars?
    cases hc : natReprChars n with
    | nil => exact absurd hc hne
    | cons c cs =>
      rw [hc] at happ
      rw [happ]
      simp only [List.reverse_reverse, fromDigitsLE_natDigits]

theorem digitChar_ne_dash {d : Nat} (h : d < 10) : digitChar d ≠ '-' := by
  interval_cases d <;> decide

theorem natReprStr_head (n : Nat) :
    ∃ d t, d < 10 ∧ natReprStr n = digitChar d :: t := by
  unfold natReprStr
  by_cases hn : n = 0
  · exact ⟨0, [], by norm_num, by simp [hn]; rfl⟩
  · rw [if_neg hn]
    have hne : natDigits n ≠ [] := by
      intro hnil
      have := fromDigitsLE_natDigits n
      rw [hnil] at this
      simp [fromDigitsLE] at this
      omega
    cases hd : (natDigits n).reverse with
    | nil => exact absurd (by simpa using hd) hne
    | cons d ds =>
      refine ⟨d, ds.map digitChar, ?_, by simp [natReprChars, hd]⟩
      exact natDigits_lt n d (List.mem_reverse.mp (hd ▸ List.mem_cons_self d ds))

theorem parseIntChars?_natReprStr (n : Nat) :
    parseIntChars? (natReprStr n) = some (n : Int) := by
  obtain ⟨d, t, hd, heq⟩ := natReprStr_head n
  rw [heq]
  have := parseNatChars?_natReprStr n
  rw [heq] at this
  simp [parseIntChars?, digitChar_ne_dash hd, this]

theorem parseIntChars?_intReprChars (i : Int) : parseIntChars? (intReprChars i) = some i := by
  unfold intReprChars
  by_cases hi : i < 0
  · rw [if_pos hi]
    have h1 : parseIntChars? ('-' :: natReprStr i.natAbs) =
        (parseNatChars? (natReprStr i.natAbs)).map (fun n => -(n : Int)) := rfl
    rw [h1, parseNatChars?_natReprStr]
    have h2 : (some i.natAbs).map (fun n => -(n : Int)) = some (-(i.natAbs : Int)) := rfl
    rw [h2]
    exact congrArg some (by omega)
  · rw [if_neg hi, parseIntChars?_natReprStr]
    exact congrArg some (by omega)

/-! ### `-`-separated fields (model of parsing `YYYY-MM-DD` date strings) -/

/-- Split a character list at every `-` (like Python splitting a date string on
its separators; always returns at least one, possibly empty, part). -/
def splitOnDash : List Char → List (List Char)
  | [] => [[]]
  | c :: cs =>
    if c = '-' then [] :: splitOnDash cs
    else
      match splitOnDash cs with
      | [] => [[c]]
      | p :: ps => (c :: p) :: ps

/-- `cs` contains no separator character. -/
def noDash (cs : List Char) : Prop := '-' ∉ cs

theorem splitOnDash_ne_nil (cs : List Char) : splitOnDash cs ≠ [] := by
  induction cs with
  | nil => simp [splitOnDash]
  | cons c t ih =>
    by_cases hc : c = '-'
    · simp [splitOnDash, hc]
    · simp only [splitOnDash, if_neg hc]
      cases h : splitOnDash t with
      | nil => simp
      | cons p ps => simp

theorem splitOnDash_no_dash {cs : List Char} (h : noDash cs) : splitOnDash cs = [cs] := by
  induction cs with
  | nil => rfl
  | cons c t ih =>
    have hc : c ≠ '-' := by
      intro habs
      exact h (habs ▸ List.mem_cons_self c t)
    have ht : noDash t := fun habs => h (List.mem_cons_of_mem c habs)
    simp [splitOnDash, hc, ih ht]

theorem splitOnDash_append {a r : List Char} (h : noDash a) :
    splitOnDash (a ++ '-' :: r) = a :: splitOnDash r := by
  induction a with
  | nil => simp [splitOnDash]
  | cons c t ih =>
    have hc : c ≠ '-' := by
      intro habs
      exact h (habs ▸ List.mem_cons_self c t)
    have ht : noDash t := fun habs => h (List.mem_cons_of_mem c habs)
    have h2 := ih ht
    simp only [List.cons_append, splitOnDash, if_neg hc, List.append_eq, h2]

theorem noDash_digitChar {d : Nat} (h : d < 10) : digitChar d ≠ '-' := digitChar_ne_dash h

theorem noDash_padChars (k n : Nat) : noDash (padChars k n) := by
  intro habs
  rcases List.mem_append.mp habs with h | h
  · exact absurd (List.eq_of_mem_replicate h) (by decide)
  · unfold natReprChars at h
    obtain ⟨d, hd, hdc⟩ := List.mem_map.mp h
    exact digitChar_ne_dash (natDigits_lt n d (List.mem_reverse.mp hd)) hdc

/-! ### Calendar dates (model of `pd.Timestamp` / `to_datetime` / `strftime`) -/

/-- A whole-day calendar date (`Last Contacted` with the time of day always
midnight, as the app only ever stores dates). -/
structure CalDate where
  year : Nat
  month : Nat
  day : Nat
deriving DecidableEq, Repr

/-- Gregorian leap-year rule. -/
def isLeap (y : Nat) : Bool := (y % 4 = 0 && y % 100 != 0) || y % 400 = 0

/-- Days in a month. -/
def daysInMonth (y m : Nat) : Nat :=
  if m = 2 then (if isLeap y then 29 else 28)
  else if m = 4 ∨ m = 6 ∨ m = 9 ∨ m = 11 then 30
  else 31

/-- A date `pd.to_datetime` accepts and `pd.Timestamp` can represent.
The nanosecond-resolution timestamp range spans 1677-09-21 .. 2262-04-11; the
partial boundary years are conservatively excluded. -/
def ValidDate (d : CalDate) : Prop :=
  1678 ≤ d.year ∧ d.year ≤ 2261 ∧ 1 ≤ d.month ∧ d.month ≤ 12 ∧
    1 ≤ d.day ∧ d.day ≤ daysInMonth d.year d.month

instance (d : CalDate) : Decidable (ValidDate d) := by
  unfold ValidDate; infer_instance

/-- `strftime("%Y-%m-%d")`: zero-padded `YYYY-MM-DD` rendering. -/
def dateChars (d : CalDate) : List Char :=
  padChars 4 d.year ++ '-' :: (padChars 2 d.month ++ '-' :: padChars 2 d.day)

/-- `pd.to_datetime(cell, errors="coerce")` on a `YYYY-MM-DD` cell: parse the
three dash-separated numeric fields and require a representable calendar date;
anything else coerces to `NaT` (`none`). -/
def parseDate? (s : String) : Option CalDate :=
  match splitOnDash s.data with
  | [ys, ms, ds] =>
    match parseNatChars? ys, parseNatChars? ms, parseNatChars? ds with
    | some y, some m, some d =>
      if ValidDate ⟨y, m, d⟩ then some ⟨y, m, d⟩ else none
    | _, _, _ => none
  | _ => none

/-- `YYYY-MM-DD` string for a present date, the empty string for `NaT` —
exactly what `save_data` writes into the `Last Contacted` cell. -/
def dateCell : Option CalDate → String
  | none => ""
  | some d => ⟨dateChars d⟩

theorem splitOnDash_dateChars (d : CalDate) :
    splitOnDash (dateChars d) = [padChars 4 d.year, padChars 2 d.month, padChars 2 d.day] := by
  unfold dateChars
  rw [splitOnDash_append (noDash_padChars 4 d.year),
    splitOnDash_append (noDash_padChars 2 d.month),
    splitOnDash_no_dash (noDash_padChars 2 d.day)]

theorem parseDate?_dateCell {d : CalDate} (h : ValidDate d) :
    parseDate? (dateCell (some d)) = some d := by
  unfold parseDate? dateCell
  have hdata : (String.mk (dateChars d)).data = dateChars d := rfl
  rw [hdata, splitOnDash_dateChars]
  simp only [parseNatChars?_padChars 4 d.year (by norm_num),
    parseNatChars?_padChars 2 d.month (by norm_num),
    parseNatChars?_padChars 2 d.day (by norm_num)]
  simp [h]

theorem parseDate?_empty : parseDate? (dateCell none) = none := rfl

/-! ### Data model -/

/-- One customer row of the in-memory table, after the dtype coercions of
`load_data`: integer id and sales, string text fields, date-or-`NaT`
last-contacted. -/
structure Customer where
  customer_id : Int
  name : String
  email : String
  phone : String
  status : String
  sales : Int
  last_contacted : Option CalDate
deriving DecidableEq, Repr

/-- One data row of the persisted CSV file, cell strings in header order
`Customer ID, Name, Email, Phone, Status, Sales, Last Contacted`.
CSV quoting is lossless and abstracted away: each cell is the unquoted text. -/
structure CsvRow where
  customer_id : String
  name : String
  email : String
  phone : String
  status : String
  sales : String
  last_contacted : String
deriving DecidableEq, Repr

/-- The default NA sentinels of `pd.read_csv`: a cell equal to one of these is
read as missing (`NaN`). -/
def naStrings : List String :=
  ["", "#N/A", "#N/A N/A", "#NA", "-1.#IND", "-1.#QNAN", "-NaN", "-nan",
   "1.#IND", "1.#QNAN", "<NA>", "N/A", "NA", "NULL", "NaN", "None", "n/a",
   "nan", "null"]

/-- Reading a text cell: `read_csv` turns an NA sentinel into `NaN`, and the
subsequent `.astype(str)` renders `NaN` as the string `"nan"`; any other cell
is kept as its text.  This is a cell-level model: the whole-column dtype
inference of `read_csv`, which reformats a column in which every cell is
numeric or boolean (e.g. an all-`"007"` column is read back as `"7"`), is not
modelled.  Every theorem whose truth could depend on that inference carries
hypotheses (`TextOk`, via `readerMayCoerce`) confining it to cells the reader
keeps as text, where this model and the program agree. -/
def readText (s : String) : String :=
  if s ∈ naStrings then "nan" else s

/-- Blank characters the numeric conversion tolerates around a cell. -/
def isCellSpace (c : Char) : Bool := c == ' ' || c == '\t'

def isDigitCh (c : Char) : Bool := 48 ≤ c.toNat && c.toNat ≤ 57

/-- Strip leading and trailing blanks of a cell. -/
def stripSpaces (cs : List Char) : List Char :=
  ((cs.dropWhile isCellSpace).reverse.dropWhile isCellSpace).reverse

/-- Drop one optional leading sign. -/
def dropSign : List Char → List Char
  | [] => []
  | c :: cs => if c = '+' ∨ c = '-' then cs else c :: cs

/-- An optional exponent suffix: nothing, or `e`/`E`, an optional sign and at
least one digit. -/
def expSuffixOk : List Char → Bool
  | [] => true
  | c :: cs =>
    (c == 'e' || c == 'E') &&
      (!(dropSign cs).isEmpty && (dropSign cs).all isDigitCh)

/-- A signless numeral: `digits`, `digits.digits` (at least one digit), either
optionally followed by an exponent. -/
def numeralBody (cs : List Char) : Bool :=
  match cs.dropWhile isDigitCh with
  | [] => !(cs.takeWhile isDigitCh).isEmpty
  | '.' :: r2 =>
    (!(cs.takeWhile isDigitCh).isEmpty || !(r2.takeWhile isDigitCh).isEmpty) &&
      expSuffixOk (r2.dropWhile isDigitCh)
  | r1 => !(cs.takeWhile isDigitCh).isEmpty && expSuffixOk r1

def lowerData (cs : List Char) : List Char := cs.map Char.toLower

/-- Cells the CSV/numeric layer may read as something other than their text:
integer or float numerals (optional surrounding blanks, sign and exponent),
infinity and nan words, and boolean literals.  This over-approximates what
`read_csv` dtype inference and `pd.to_numeric` accept; hypotheses stated with
it therefore only ever narrow a theorem to cells kept verbatim. -/
def readerMayCoerce (s : String) : Bool :=
  numeralBody (dropSign (stripSpaces s.data)) ||
    lowerData (dropSign (stripSpaces s.data)) == "inf".data ||
    lowerData (dropSign (stripSpaces s.data)) == "infinity".data ||
    lowerData (dropSign (stripSpaces s.data)) == "nan".data ||
    lowerData s.data == "true".data || lowerData s.data == "false".data

/-- Reading a numeric cell:
`pd.to_numeric(cell, errors="coerce").fillna(0).astype(int)`. -/
def readIntCell (s : String) : Int :=
  (parseInt? s).getD 0

/-- `load_data` on one CSV data row (the dtype-coercion block of
`load_data`). -/
def loadRow (r : CsvRow) : Customer :=
  { customer_id := readIntCell r.customer_id
    name := readText r.name
    email := readText r.email
    phone := readText r.phone
    status := readText r.status
    sales := readIntCell r.sales
    last_contacted := parseDate? r.last_contacted }

/-- `load_data` on the data rows of an existing CSV file. -/
def loadData (rows : List CsvRow) : List Customer :=
  rows.map loadRow

/-- `save_data` on one customer row: integers in decimal, text verbatim,
`Last Contacted` as `YYYY-MM-DD` or the empty string. -/
def saveRow (c : Customer) : CsvRow :=
  { customer_id := ⟨intReprChars c.customer_id⟩
    name := c.name
    email := c.email
    phone := c.phone
    status := c.status
    sales := ⟨intReprChars c.sales⟩
    last_contacted := dateCell c.last_contacted }

/-- `save_data`: serialize the whole row set. -/
def saveData (rows : List Customer) : List CsvRow :=
  rows.map saveRow

/-- A text cell the CSV reader hands back unchanged: not an NA sentinel and
not a cell the reader may coerce to a number or boolean (`"nan"` itself also
survives, because the sentinel it is read as renders back to `"nan"`). -/
def TextOk (s : String) : Prop :=
  (s ∉ naStrings ∧ readerMayCoerce s = false) ∨ s = "nan"

instance (s : String) : Decidable (TextOk s) := by
  unfold TextOk; infer_instance

/-- An integer the int64-based numeric pipeline reads and writes exactly. -/
def IntOk (i : Int) : Prop :=
  -9223372036854775808 ≤ i ∧ i < 9223372036854775808

instance (i : Int) : Decidable (IntOk i) := by
  unfold IntOk; infer_instance

/-- An integer exact on every path of the upload's numeric pipeline: within
int64, and still exact if an NA cell elsewhere in the column forces a
float64 detour (`|n| ≤ 2^53`). -/
def ExactInt (n : Int) : Prop :=
  -9007199254740992 ≤ n ∧ n ≤ 9007199254740992

instance (n : Int) : Decidable (ExactInt n) := by
  unfold ExactInt; infer_instance

/-- A numeric cell on which this model and the program's numeric pipeline
agree: an exactly-representable integer numeral (both read the same value),
or a cell the reader cannot coerce at all (both yield the 0 fallback). -/
def CellClean (s : String) : Prop :=
  (∃ n : Int, parseInt? s = some n ∧ ExactInt n) ∨ readerMayCoerce s = false

/-- A text cell on which this model and the reader agree: an NA sentinel
(both yield `"nan"`) or a cell the reader cannot coerce (kept verbatim by
both). -/
def TextCellOk (s : String) : Prop :=
  s ∈ naStrings ∨ readerMayCoerce s = false

instance (s : String) : Decidable (TextCellOk s) := by
  unfold TextCellOk; infer_instance

/-- A date cell on which this model and `to_datetime` agree: a
dash-separated representable date (both read it), or an NA sentinel (both
yield `NaT`).  `to_datetime` additionally accepts other date formats, which
are outside this model. -/
def DateCellOk (s : String) : Prop :=
  (parseDate? s).isSome = true ∨ s ∈ naStrings

instance (s : String) : Decidable (DateCellOk s) := by
  unfold DateCellOk; infer_instance

instance (s : String) : Decidable (CellClean s) := by
  unfold CellClean
  refine @instDecidableOr _ _ ?_ ?_
  · cases hp : parseInt? s with
    | none =>
      exact isFalse (by
        rintro ⟨n, hn, _⟩
        exact Option.noConfusion hn)
    | some n =>
      exact if h : ExactInt n then isTrue ⟨n, rfl, h⟩ else
        isFalse (by
          rintro ⟨m, hm, hmk⟩
          injection hm with hnm
          subst hnm
          exact h hmk)
  · infer_instance

/-- A date that survives the save/load round trip: absent, or representable. -/
def DateOk (d : Option CalDate) : Prop :=
  match d with
  | none => True
  | some d => ValidDate d

/-- A well-formed in-memory row: its cell values survive one save/load
round trip. -/
def RowOk (c : Customer) : Prop :=
  IntOk c.customer_id ∧ IntOk c.sales ∧
    TextOk c.name ∧ TextOk c.email ∧ TextOk c.phone ∧ TextOk c.status ∧
    DateOk c.last_contacted

instance : (d : Option CalDate) → Decidable (DateOk d)
  | none => isTrue trivial
  | some d => if h : ValidDate d then isTrue h else isFalse h

instance (c : Customer) : Decidable (RowOk c) := by
  unfold RowOk; infer_instance

theorem parseInt?_intRepr (i : Int) : parseInt? ⟨intReprChars i⟩ = some i :=
  parseIntChars?_intReprChars i

theorem readText_textOk {s : String} (h : TextOk s) : readText s = s := by
  unfold readText
  rcases h with ⟨h, _⟩ | h
  · rw [if_neg h]
  · subst h; rfl

theorem loadRow_saveRow {c : Customer} (h : RowOk c) : loadRow (saveRow c) = c := by
  obtain ⟨_, _, hn, he, hp, hs, hd⟩ := h
  unfold loadRow saveRow readIntCell
  simp only [parseInt?_intRepr, Option.getD_some,
    readText_textOk hn, readText_textOk he, readText_textOk hp, readText_textOk hs]
  cases hc : c.last_contacted with
  | none =>
    simp only [parseDate?_empty]
    rw [← hc]
  | some d =>
    unfold DateOk at hd
    rw [hc] at hd
    simp only [parseDate?_dateCell hd]
    rw [← hc]

/-! ### Validation errors -/

inductive ValError where
  | missingField
  | dupEmail
deriving DecidableEq, Repr

inductive ImportError where
  | schema
  | duplicateIds
  | nonPositiveId
  | negativeSales
deriving DecidableEq, Repr

/-! ### Add / edit / delete (Customer Management page) -/

/-- The fields of the add-customer form.  The date picker always yields a
date and the status selectbox one of its three options; `sales` comes from a
nonnegative number input. -/
structure AddInput where
  name : String
  email : String
  phone : String
  status : String
  sales : Int
  last_contacted : CalDate
deriving DecidableEq, Repr

/-- The fields of the edit-customer form (every column except the id). -/
structure EditInput where
  name : String
  email : String
  phone : String
  status : String
  sales : Int
  last_contacted : CalDate
deriving DecidableEq, Repr

/-- `df["Customer ID"].max()` when the table is nonempty. -/
def listMaxI : List Int → Int
  | [] => 0
  | x :: xs => xs.foldl max x

/-- `df["Customer ID"].max() if not df.empty else 0` of the add handler. -/
def maxId (rows : List Customer) : Int := listMaxI (rows.map (·.customer_id))

/-- The add-customer submit handler: reject an empty name or email, reject a
duplicate email, otherwise append a row with id `max + 1`. -/
def addCustomer (rows : List Customer) (a : AddInput) : Except ValError (List Customer) :=
  if a.name = "" ∨ a.email = "" then .error .missingField
  else if a.email ∈ rows.map (·.email) then .error .dupEmail
  else .ok (rows ++
    [{ customer_id := maxId rows + 1, name := a.name, email := a.email, phone := a.phone,
       status := a.status, sales := a.sales, last_contacted := some a.last_contacted }])

/-- Overwrite every column but the id, as the edit handler's `.loc` row
assignment does. -/
def applyEdit (e : EditInput) (r : Customer) : Customer :=
  { r with name := e.name, email := e.email, phone := e.phone, status := e.status,
           sales := e.sales, last_contacted := some e.last_contacted }

/-- The edit-customer submit handler.  `sel` is `df[df["Customer ID"] == id].iloc[0]`,
the first row carrying the selected id; the email-collision check compares the
new email against all emails but excuses `sel`'s own; on success the `.loc`
mask overwrites every row whose id matches.  The UI only offers existing ids;
an absent id makes the mask empty and the row set is returned unchanged. -/
def editCustomer (rows : List Customer) (id : Int) (e : EditInput) :
    Except ValError (List Customer) :=
  match rows.find? (fun r => r.customer_id == id) with
  | none => .ok rows
  | some sel =>
    if e.email ∈ rows.map (·.email) ∧ e.email ≠ sel.email then .error .dupEmail
    else .ok (rows.map (fun r => if r.customer_id == id then applyEdit e r else r))

/-- The delete button handler: `df[df["Customer ID"] != id]` followed by a
positional re-index. -/
def deleteCustomer (rows : List Customer) (id : Int) : List Customer :=
  rows.filter (fun r => r.customer_id != id)

/-! ### Bulk import (sidebar uploader) -/

/-- An uploaded CSV as parsed by `pd.read_csv`: its header (column names in
order) and its data rows (cell strings in the same order). -/
structure RawTable where
  cols : List String
  rows : List (List String)
deriving DecidableEq, Repr

/-- The column set the uploader requires. -/
def requiredColumns : List String :=
  ["Customer ID", "Name", "Email", "Phone", "Status", "Sales", "Last Contacted"]

/-- The cell of column `c` in data row `row` (empty when the column is
absent; only consulted after the schema check). -/
def cellOf (t : RawTable) (c : String) (row : List String) : String :=
  match t.cols.findIdx? (· == c) with
  | some i => row.getD i ""
  | none => ""

/-- The dtype-coercion block of the uploader, applied to one row: numeric
columns through `to_numeric(...).fillna(0).astype(int)`, the date through
`to_datetime(errors="coerce")`, text through `astype(str)`. -/
def coerceRow (t : RawTable) (row : List String) : Customer :=
  { customer_id := readIntCell (cellOf t "Customer ID" row)
    name := readText (cellOf t "Name" row)
    email := readText (cellOf t "Email" row)
    phone := readText (cellOf t "Phone" row)
    status := readText (cellOf t "Status" row)
    sales := readIntCell (cellOf t "Sales" row)
    last_contacted := parseDate? (cellOf t "Last Contacted" row) }

/-- Every cell of an uploaded row lies where this model and the program's
readers provably agree: numeric cells clean, text cells kept or NA, the date
cell dash-formatted or NA. -/
def RowCellsClean (t : RawTable) (row : List String) : Prop :=
  CellClean (cellOf t "Customer ID" row) ∧ CellClean (cellOf t "Sales" row) ∧
    TextCellOk (cellOf t "Name" row) ∧ TextCellOk (cellOf t "Email" row) ∧
    TextCellOk (cellOf t "Phone" row) ∧ TextCellOk (cellOf t "Status" row) ∧
    DateCellOk (cellOf t "Last Contacted" row)

instance (t : RawTable) (row : List String) : Decidable (RowCellsClean t row) := by
  unfold RowCellsClean; infer_instance

/-- The uploader pipeline: require every required column to be present, coerce
dtypes, then reject duplicate ids, non-positive ids, and negative sales, in
that order; on success the coerced table replaces the store.  (Extra columns
of the upload, which the real store would carry along after the replacement,
are not modelled; no claim depends on them beyond their acceptance.) -/
def importCsv (t : RawTable) : Except ImportError (List Customer) :=
  if ¬ (∀ c ∈ requiredColumns, c ∈ t.cols) then .error .schema
  else if ¬ ((t.rows.map (coerceRow t)).map (·.customer_id)).Nodup then .error .duplicateIds
  else if (t.rows.map (coerceRow t)).any (fun c => decide (c.customer_id ≤ 0)) then
    .error .nonPositiveId
  else if (t.rows.map (coerceRow t)).any (fun c => decide (c.sales < 0)) then
    .error .negativeSales
  else .ok (t.rows.map (coerceRow t))

/-! ### Aggregates (Dashboard and Reports pages) -/

/-- Lexicographic code-point comparison of strings, as Python compares the
`groupby` keys when sorting them. -/
def lexLeB : List Char → List Char → Bool
  | [], _ => true
  | _ :: _, [] => false
  | a :: as, b :: bs =>
    if a.toNat < b.toNat then true
    else if b.toNat < a.toNat then false
    else lexLeB as bs

def strLe (a b : String) : Prop := lexLeB a.data b.data = true

instance : DecidableRel strLe := fun a b => by unfold strLe; infer_instance

/-- `Last Contacted.dt.to_period("M").astype(str)` for one row: the
`"YYYY-MM"` month string, or the string `"NaT"` for a missing date. -/
def monthKey (c : Customer) : String :=
  match c.last_contacted with
  | none => "NaT"
  | some d => ⟨padChars 4 d.year ++ '-' :: padChars 2 d.month⟩

/-- `df.groupby("Month")["Sales"].sum()` over the derived month column:
the distinct month keys in ascending string order, each with the sum of
`Sales` over its rows. -/
def salesTrend (rows : List Customer) : List (String × Int) :=
  (((rows.map monthKey).dedup).insertionSort strLe).map
    (fun k => (k, ((rows.filter (fun r => monthKey r == k)).map (·.sales)).sum))

/-- Modelled from the spec (for comparison with `salesTrend`): the trend as
§4.1 words it, with every row whose `last_contacted` is null excluded before
grouping. -/
def salesTrendSpec (rows : List Customer) : List (String × Int) :=
  salesTrend (rows.filter (fun r => r.last_contacted.isSome))

/-- `df["Status"].value_counts()`: occurrence count per status, ordered by
descending count. -/
def statusCounts (rows : List Customer) : List (String × Nat) :=
  (((rows.map (·.status)).dedup).map
    (fun k => (k, (rows.filter (fun r => r.status == k)).length))).insertionSort
    (fun a b => b.2 ≤ a.2)

/-- `df["Sales"].sum()`. -/
def totalSales (rows : List Customer) : Int := (rows.map (·.sales)).sum

/-- `nlargest` tie-breaking relation: greater sales first. -/
def salesGe (a b : Customer) : Prop := b.sales ≤ a.sales

instance : DecidableRel salesGe := fun a b => by unfold salesGe; infer_instance

/-- `df.nlargest(n, "Sales")` with the default `keep="first"`: the first `n`
rows of the stable descending sort by `Sales`. -/
def nlargest (n : Nat) (rows : List Customer) : List Customer :=
  (rows.insertionSort salesGe).take n

/-- The Reports page table `df.nlargest(5, "Sales")[["Name", "Sales"]]`. -/
def topCustomers (rows : List Customer) : List (String × Int) :=
  (nlargest 5 rows).map (fun r => (r.name, r.sales))

/-! ### The in-memory store and the page computations acting on it -/

/-- The session's DataFrame: the customer rows plus the derived `Month`
column, which exists only after the Reports page has written it
(`df["Month"] = ...` assigns into the session DataFrame). -/
structure StoreState where
  rows : List Customer
  monthCol : Option (List String)
deriving DecidableEq, Repr

def runStatusCounts (s : StoreState) : StoreState × List (String × Nat) :=
  (s, statusCounts s.rows)

def runTotalSales (s : StoreState) : StoreState × Int :=
  (s, totalSales s.rows)

def runTopCustomers (s : StoreState) : StoreState × List (String × Int) :=
  (s, topCustomers s.rows)

/-- The Reports page trend block: on a nonempty table it first assigns the
derived month column into the session DataFrame, then groups and sums. -/
def runSalesTrend (s : StoreState) : StoreState × List (String × Int) :=
  if s.rows.isEmpty then (s, [])
  else ({ rows := s.rows, monthCol := some (s.rows.map monthKey) }, salesTrend s.rows)

/-! ### Whole-application state (store + persisted file) -/

/-- The in-memory row set together with the persisted CSV file's data rows. -/
structure AppState where
  rows : List Customer
  file : List CsvRow
deriving DecidableEq, Repr

/-- Add handler at the application level: a successful add updates the store
and rewrites the file; a rejected one only surfaces the error. -/
def addApp (s : AppState) (a : AddInput) : AppState × Option ValError :=
  match addCustomer s.rows a with
  | .error e => (s, some e)
  | .ok r => ({ rows := r, file := saveData r }, none)

/-- Edit handler at the application level. -/
def editApp (s : AppState) (id : Int) (e : EditInput) : AppState × Option ValError :=
  match editCustomer s.rows id e with
  | .error err => (s, some err)
  | .ok r => ({ rows := r, file := saveData r }, none)

/-- Upload handler at the application level. -/
def importApp (s : AppState) (t : RawTable) : AppState × Option ImportError :=
  match importCsv t with
  | .error e => (s, some e)
  | .ok r => ({ rows := r, file := saveData r }, none)

/-! ### Sequences of store mutations -/

inductive StoreOp where
  | add (a : AddInput)
  | edit (id : Int) (e : EditInput)

/-- Run one operation against the row set; a rejected operation leaves the
rows unchanged. -/
def applyOp (rows : List Customer) : StoreOp → List Customer
  | .add a =>
    match addCustomer rows a with
    | .ok r => r
    | .error _ => rows
  | .edit id e =>
    match editCustomer rows id e with
    | .ok r => r
    | .error _ => rows

def applyOps (rows : List Customer) (ops : List StoreOp) : List Customer :=
  ops.foldl applyOp rows

/-- The §8 uniqueness invariant: no two rows share an id, no two rows share
an email. -/
def Uniq (rows : List Customer) : Prop :=
  (rows.map (·.customer_id)).Nodup ∧ (rows.map (·.email)).Nodup

/-! ### Order properties of the comparison relations -/

theorem lexLeB_cons_iff (a b : Char) (ta tb : List Char) :
    lexLeB (a :: ta) (b :: tb) = true ↔
      a.toNat < b.toNat ∨ (a.toNat = b.toNat ∧ lexLeB ta tb = true) := by
  unfold lexLeB
  split_ifs with h1 h2
  · simp [h1]
  · have hne : a.toNat ≠ b.toNat := by omega
    simp [h1, hne]
  · have heq : a.toNat = b.toNat := by omega
    simp [h1, heq]
    cases ta <;> cases tb <;> simp [lexLeB]

theorem lexLeB_total : ∀ as bs : List Char, lexLeB as bs = true ∨ lexLeB bs as = true := by
  intro as
  induction as with
  | nil => intro bs; left; rfl
  | cons a ta ih =>
    intro bs
    cases bs with
    | nil => right; rfl
    | cons b tb =>
      rw [lexLeB_cons_iff, lexLeB_cons_iff]
      rcases Nat.lt_trichotomy a.toNat b.toNat with h | h | h
      · left; exact Or.inl h
      · rcases ih tb with h2 | h2
        · left; exact Or.inr ⟨h, h2⟩
        · right; exact Or.inr ⟨h.symm, h2⟩
      · right; exact Or.inl h

theorem lexLeB_trans :
    ∀ as bs cs : List Char, lexLeB as bs = true → lexLeB bs cs = true →
      lexLeB as cs = true := by
  intro as
  induction as with
  | nil => intro bs cs _ _; rfl
  | cons a ta ih =>
    intro bs cs hab hbc
    cases bs with
    | nil => simp [lexLeB] at hab
    | cons b tb =>
      cases cs with
      | nil => simp [lexLeB] at hbc
      | cons c tc =>
        rw [lexLeB_cons_iff] at hab hbc ⊢
        rcases hab with hab | ⟨hab, hab2⟩
        · rcases hbc with hbc | ⟨hbc, _⟩
          · exact Or.inl (hab.trans hbc)
          · exact Or.inl (hbc ▸ hab)
        · rcases hbc with hbc | ⟨hbc, hbc2⟩
          · exact Or.inl (hab ▸ hbc)
          · exact Or.inr ⟨hab.trans hbc, ih tb tc hab2 hbc2⟩

instance : IsTotal String strLe := ⟨fun a b => lexLeB_total a.data b.data⟩

instance : IsTrans String strLe := ⟨fun a b c => lexLeB_trans a.data b.data c.data⟩

instance : IsTotal Customer salesGe := ⟨fun a b => le_total b.sales a.sales⟩

instance : IsTrans Customer salesGe := ⟨fun _ _ _ hab hbc => le_trans hbc hab⟩

/-- `salesGe` lifted to index-tagged rows (ignoring the index). -/
def pairSalesGe (a b : Nat × Customer) : Prop := b.2.sales ≤ a.2.sales

instance : DecidableRel pairSalesGe := fun a b => by unfold pairSalesGe; infer_instance

/-- The strict-total tie-broken relation: greater sales first, equal sales
ordered by original position. -/
def idxSalesGe (a b : Nat × Customer) : Prop :=
  b.2.sales < a.2.sales ∨ (a.2.sales = b.2.sales ∧ a.1 ≤ b.1)

instance : DecidableRel idxSalesGe := fun a b => by unfold idxSalesGe; infer_instance

instance : IsTotal (Nat × Customer) idxSalesGe :=
  ⟨fun a b => by unfold idxSalesGe; omega⟩

instance : IsTrans (Nat × Customer) idxSalesGe :=
  ⟨fun a b c hab hbc => by unfold idxSalesGe at hab hbc ⊢; omega⟩

/-! ### Stability of `nlargest` -/

theorem orderedInsert_rel_congr {α : Type} {r r' : α → α → Prop}
    [DecidableRel r] [DecidableRel r'] (a : α) :
    ∀ l : List α, (∀ b ∈ l, r a b ↔ r' a b) →
      l.orderedInsert r a = l.orderedInsert r' a := by
  intro l
  induction l with
  | nil => intro _; rfl
  | cons b t ih =>
    intro h
    have hb := h b (List.mem_cons_self b t)
    by_cases hr : r a b
    · simp [List.orderedInsert, hr, hb.mp hr]
    · have hr' : ¬ r' a b := fun habs => hr (hb.mpr habs)
      simp [List.orderedInsert, hr, hr',
        ih (fun x hx => h x (List.mem_cons_of_mem b hx))]

theorem mem_enumFrom_le {α : Type} :
    ∀ (l : List α) (n : Nat) (p : Nat × α), p ∈ List.enumFrom n l → n ≤ p.1 := by
  intro l
  induction l with
  | nil => intro n p h; simp [List.enumFrom] at h
  | cons a t ih =>
    intro n p h
    rcases List.mem_cons.mp h with h | h
    · subst h; exact le_rfl
    · exact le_trans (Nat.le_succ n) (ih (n + 1) p h)

theorem enumFrom_map_snd {α : Type} :
    ∀ (n : Nat) (l : List α), (List.enumFrom n l).map Prod.snd = l := by
  intro n l
  induction l generalizing n with
  | nil => rfl
  | cons a t ih => simp [List.enumFrom, ih]

/-- On index-tagged rows with all indices distinct the way `enumFrom`
produces them, sorting by sales alone and sorting by the tie-broken strict
order agree: insertion sort is stable. -/
theorem insertionSort_enumFrom_stable :
    ∀ (l : List Customer) (n : Nat),
      (List.enumFrom n l).insertionSort pairSalesGe =
        (List.enumFrom n l).insertionSort idxSalesGe := by
  intro l
  induction l with
  | nil => intro n; rfl
  | cons a t ih =>
    intro n
    show ((List.enumFrom (n + 1) t).insertionSort pairSalesGe).orderedInsert pairSalesGe (n, a) =
      ((List.enumFrom (n + 1) t).insertionSort idxSalesGe).orderedInsert idxSalesGe (n, a)
    rw [ih (n + 1)]
    apply orderedInsert_rel_congr
    intro b hb
    have hbn : n + 1 ≤ b.1 :=
      mem_enumFrom_le t (n + 1) b ((List.mem_insertionSort idxSalesGe).mp hb)
    unfold pairSalesGe idxSalesGe
    omega

/-- `nlargest` in terms of the tie-broken sort of the index-tagged rows. -/
theorem nlargest_eq_idx_sort (n : Nat) (rows : List Customer) :
    nlargest n rows =
      (((rows.enum).insertionSort idxSalesGe).take n).map Prod.snd := by
  unfold nlargest
  have h1 : rows.insertionSort salesGe =
      ((rows.enum).insertionSort pairSalesGe).map Prod.snd := by
    have hmap := List.map_insertionSort pairSalesGe salesGe Prod.snd rows.enum
      (fun a _ b _ => Iff.rfl)
    rw [hmap, List.enum, enumFrom_map_snd]
  have h2 : (rows.enum).insertionSort pairSalesGe = (rows.enum).insertionSort idxSalesGe :=
    insertionSort_enumFrom_stable rows 0
  rw [h1, h2, List.map_take]

/-! ### Demonstration data used by individual claims -/

/-- A CSV file whose first two id cells are unparseable: `load_data` coerces
both to `0`, so the loaded store carries duplicate ids. -/
def dupIdFile : List CsvRow :=
  [⟨"abc", "A", "a@x", "p", "Active", "10", "2023-10-01"⟩,
   ⟨"??", "B", "b@x", "p", "Lead", "20", ""⟩,
   ⟨"7", "C", "c@x", "p", "Lead", "30", ""⟩]

def dupIdRows : List Customer := loadData dupIdFile

/-- A row with the given name and sales, for the `top_n_by_sales` example. -/
def topDemo (nm : String) (s : Int) : Customer :=
  ⟨0, nm, "", "", "Active", s, none⟩

/-- The §8 example rows with sales `[5000, 2000, 0, 8000, 3000]`. -/
def topDemoRows : List Customer :=
  [topDemo "a" 5000, topDemo "b" 2000, topDemo "c" 0, topDemo "d" 8000, topDemo "e" 3000]

/-- A store that has not visited the Reports page: no derived month column. -/
def trendDemoState : StoreState :=
  ⟨[⟨1, "A", "a@x", "", "Active", 100, some ⟨2023, 10, 1⟩⟩], none⟩

/-- An upload carrying every required column plus an extra one. -/
def extraColsTable : RawTable :=
  ⟨["Customer ID", "Name", "Email", "Phone", "Status", "Sales", "Last Contacted", "Extra"],
   [["1", "A", "a@x", "p", "Active", "10", "2023-10-01", "x"]]⟩

theorem countP_not_add (p : Customer → Bool) :
    ∀ l : List Customer, (l.filter (fun r => !(p r))).length + l.countP p = l.length := by
  intro l
  induction l with
  | nil => rfl
  | cons r t ih =>
    cases h : p r with
    | true =>
      have hf : List.filter (fun x => !(p x)) (r :: t) = List.filter (fun x => !(p x)) t := by
        simp [List.filter_cons, h]
      have hc : List.countP p (r :: t) = List.countP p t + 1 := by
        simp [List.countP_cons, h]
      rw [hf, hc, List.length_cons]
      omega
    | false =>
      have hf : List.filter (fun x => !(p x)) (r :: t) =
          r :: List.filter (fun x => !(p x)) t := by
        simp [List.filter_cons, h]
      have hc : List.countP p (r :: t) = List.countP p t := by
        simp [List.countP_cons, h]
      rw [hf, hc, List.length_cons, List.length_cons]
      omega

/-! ### Claim C10 -/

/-- C10: `Delete` removes every row whose `customer_id` equals the given id —
the result is a subsequence of the original rows (non-matching rows kept in
their original order), contains no row with the id, and is shorter by exactly
the number of matching rows; on the duplicate-id store that `load_data`
produces from two unparseable id cells, one delete of id 0 removes both
matching rows. -/
theorem delete_removes_every_matching_row (rows : List Customer) (id : Int) :
    List.Sublist (deleteCustomer rows id) rows ∧
    (∀ r ∈ deleteCustomer rows id, r.customer_id ≠ id) ∧
    (deleteCustomer rows id).length +
      rows.countP (fun r => r.customer_id == id) = rows.length ∧
    dupIdRows.map (·.customer_id) = [0, 0, 7] ∧
    deleteCustomer dupIdRows 0 = [⟨7, "C", "c@x", "p", "Lead", 30, none⟩] := by
  refine ⟨List.filter_sublist _, ?_, ?_, by decide, by decide⟩
  · intro r hr
    have h := List.of_mem_filter hr
    simpa using h
  · unfold deleteCustomer
    exact countP_not_add (fun r => r.customer_id == id) rows

/-! ### Claim C7 -/

/-- C7: `top_n_by_sales(n)` equals the first `n` entries of the tie-broken
descending sort of the index-tagged rows — a permutation of all rows, sorted
so that greater sales come first and equal sales keep their original order —
and its output is sorted by descending sales; on the §8 example rows with
sales `[5000, 2000, 0, 8000, 3000]` and `n = 2` it returns the rows with
sales 8000 then 5000. -/
theorem top_n_by_sales_stable (n : Nat) (rows : List Customer) :
    nlargest n rows = (((rows.enum).insertionSort idxSalesGe).take n).map Prod.snd ∧
    List.Sorted idxSalesGe ((rows.enum).insertionSort idxSalesGe) ∧
    ((rows.enum).insertionSort idxSalesGe).Perm rows.enum ∧
    List.Sorted salesGe (nlargest n rows) ∧
    nlargest 2 topDemoRows = [topDemo "d" 8000, topDemo "a" 5000] :=
  ⟨nlargest_eq_idx_sort n rows,
   List.sorted_insertionSort idxSalesGe rows.enum,
   List.perm_insertionSort idxSalesGe rows.enum,
   List.Pairwise.sublist (List.take_sublist n _) (List.sorted_insertionSort salesGe rows),
   by decide⟩

/-! ### Claim C1 -/

/-- C1 counterexample: computing the monthly sales trend does not leave the
store unchanged — it writes the derived `Month` column into the session
DataFrame. -/
theorem sales_trend_mutates_store :
    (runSalesTrend trendDemoState).1 ≠ trendDemoState := by decide

/-- C1 (amended): `status_counts`, `total_sales` and `top_n_by_sales` leave
the store untouched; `monthly_sales_trend` leaves the rows and their cell
values unchanged but assigns the derived `Month` column into the in-memory
store (when the table is nonempty). -/
theorem aggregates_frame_amended (s : StoreState) :
    (runStatusCounts s).1 = s ∧ (runTotalSales s).1 = s ∧ (runTopCustomers s).1 = s ∧
    (runSalesTrend s).1.rows = s.rows ∧
    (runSalesTrend s).1.monthCol =
      (if s.rows.isEmpty then s.monthCol else some (s.rows.map monthKey)) := by
  refine ⟨rfl, rfl, rfl, ?_, ?_⟩ <;>
    by_cases h : s.rows.isEmpty <;> simp [runSalesTrend, h]

/-! ### Claim C3 -/

/-- C3 counterexample: an uploaded CSV whose column set differs from the
required set (an extra column) is accepted, not rejected. -/
theorem import_accepts_extra_columns :
    extraColsTable.cols ≠ requiredColumns ∧
    importCsv extraColsTable =
      Except.ok [⟨1, "A", "a@x", "p", "Active", 10, some ⟨2023, 10, 1⟩⟩] :=
  ⟨by decide, by rfl⟩

/-- C3 (amended): bulk import fails with `SchemaError` exactly when some
required column is missing from the upload; columns beyond the required set
are not rejected. -/
theorem import_schema_error_iff_missing_column (t : RawTable) :
    importCsv t = Except.error ImportError.schema ↔
      ¬ (∀ c ∈ requiredColumns, c ∈ t.cols) := by
  unfold importCsv
  by_cases h : ∀ c ∈ requiredColumns, c ∈ t.cols
  · rw [if_neg (not_not_intro h)]
    constructor
    · intro habs
      exfalso
      revert habs
      split_ifs <;> intro habs <;> simp at habs
    · intro habs
      exact absurd h habs
  · rw [if_pos h]
    simp [h]

/-! ### Claim C4 -/

/-- C4: every rejected add, edit or import leaves both the in-memory row set
and the persisted CSV file exactly as they were — a rejected operation
performs no mutation and never reaches `save_data`. -/
theorem rejected_ops_leave_state_unchanged :
    (∀ (s : AppState) (a : AddInput) (e : ValError),
      (addApp s a).2 = some e → (addApp s a).1 = s) ∧
    (∀ (s : AppState) (id : Int) (ed : EditInput) (e : ValError),
      (editApp s id ed).2 = some e → (editApp s id ed).1 = s) ∧
    (∀ (s : AppState) (t : RawTable) (e : ImportError),
      (importApp s t).2 = some e → (importApp s t).1 = s) := by
  refine ⟨?_, ?_, ?_⟩
  · intro s a e h
    unfold addApp at h ⊢
    cases hr : addCustomer s.rows a with
    | error err => simp [hr]
    | ok r => rw [hr] at h; simp at h
  · intro s id ed e h
    unfold editApp at h ⊢
    cases hr : editCustomer s.rows id ed with
    | error err => simp [hr]
    | ok r => rw [hr] at h; simp at h
  · intro s t e h
    unfold importApp at h ⊢
    cases hr : importCsv t with
    | error err => simp [hr]
    | ok r => rw [hr] at h; simp at h

/-! ### Claim C6 -/

theorem listMaxI_eq_max? : ∀ l : List Int, listMaxI l = (l.max?).getD 0
  | [] => rfl
  | _ :: _ => rfl

/-- C6: a successful add appends exactly one row, whose id is `1 +` the
maximum of the previous ids (`0` when there are none). -/
theorem add_assigns_next_id (rows : List Customer) (a : AddInput)
    (h1 : a.name ≠ "") (h2 : a.email ≠ "") (h3 : a.email ∉ rows.map (·.email)) :
    ∃ c, addCustomer rows a = .ok (rows ++ [c]) ∧
      c.customer_id = ((rows.map (·.customer_id)).max?).getD 0 + 1 := by
  refine ⟨⟨maxId rows + 1, a.name, a.email, a.phone, a.status, a.sales,
    some a.last_contacted⟩, ?_, ?_⟩
  · unfold addCustomer
    rw [if_neg (show ¬ (a.name = "" ∨ a.email = "") from by simp [h1, h2]), if_neg h3]
  · show maxId rows + 1 = ((rows.map (·.customer_id)).max?).getD 0 + 1
    unfold maxId
    rw [listMaxI_eq_max?]

/-- The §8 example input `{name: "A", email: "a@x.com", status: "Lead", sales: 0}`. -/
def specAddInput : AddInput := ⟨"A", "a@x.com", "", "Lead", 0, ⟨2025, 1, 1⟩⟩

/-- C6 witness: adding the §8 example to the empty store succeeds and the new
row's id is 1. -/
theorem add_assigns_next_id_witness :
    (∃ c, addCustomer [] specAddInput = .ok ([] ++ [c]) ∧
      c.customer_id = ((([] : List Customer).map (·.customer_id)).max?).getD 0 + 1) ∧
    addCustomer [] specAddInput =
      .ok [⟨1, "A", "a@x.com", "", "Lead", 0, some ⟨2025, 1, 1⟩⟩] :=
  ⟨add_assigns_next_id [] specAddInput (by decide) (by decide) (by decide), by rfl⟩

/-! ### Claim C8 -/

/-- A row set that is well formed in the spec's sense (integer id and sales,
string text fields, whole-day date) but whose empty phone string breaks the
round trip. -/
def roundtripCounterRows : List Customer := [⟨1, "A", "a@x.com", "", "Lead", 0, none⟩]

/-- Two rows exercising both date shapes and ordinary text. -/
def roundtripDemoRows : List Customer :=
  [⟨1, "John Doe", "john@example.com", "555-0101", "Active", 5000, some ⟨2023, 10, 1⟩⟩,
   ⟨2, "Jane Smith", "jane@example.com", "555-0102", "Lead", 2000, none⟩]

theorem lexLeB_refl : ∀ cs : List Char, lexLeB cs cs = true := by
  intro cs
  induction cs with
  | nil => rfl
  | cons c t ih =>
    rw [lexLeB_cons_iff]
    exact Or.inr ⟨rfl, ih⟩

theorem padChars_head_digit (k n : Nat) (hk : 1 ≤ k) :
    ∃ c t, padChars k n = c :: t ∧ c.toNat ≤ 57 := by
  unfold padChars
  cases hrep : k - (natReprChars n).length with
  | zero =>
    have hlen : 1 ≤ (natReprChars n).length := by omega
    cases hval : natReprChars n with
    | nil => rw [hval] at hlen; simp at hlen
    | cons c t =>
      have hdig : ∃ d, d < 10 ∧ digitChar d = c := by
        have hc : c ∈ natReprChars n := hval ▸ List.mem_cons_self c t
        unfold natReprChars at hc
        obtain ⟨d, hd, hdc⟩ := List.mem_map.mp hc
        exact ⟨d, natDigits_lt n d (List.mem_reverse.mp hd), hdc⟩
      obtain ⟨d, hd10, hdc⟩ := hdig
      refine ⟨c, t, ?_, ?_⟩
      · rfl
      · rw [← hdc]
        interval_cases d <;> decide
  | succ m =>
    exact ⟨'0', List.replicate m '0' ++ natReprChars n, rfl, by decide⟩

/-- Every month key sorts at or before `"NaT"`: a real month string starts
with a digit, which precedes `'N'`. -/
theorem strLe_monthKey_NaT (c : Customer) : strLe (monthKey c) "NaT" := by
  unfold monthKey
  cases c.last_contacted with
  | none => exact lexLeB_refl ("NaT".data)
  | some d =>
    obtain ⟨ch, t, heq, hle⟩ := padChars_head_digit 4 d.year (by norm_num)
    show lexLeB (padChars 4 d.year ++ '-' :: padChars 2 d.month) ("NaT".data) = true
    rw [heq, List.cons_append]
    have hN : ("NaT" : String).data = 'N' :: ['a', 'T'] := rfl
    rw [hN, lexLeB_cons_iff]
    left
    have h78 : ('N' : Char).toNat = 78 := rfl
    omega

/-- A store whose only row has a null `last_contacted`. -/
def nullDateRows : List Customer := [⟨1, "A", "a@x", "", "Active", 100, none⟩]

/-- C2 counterexample: the row with null `last_contacted` is not excluded —
it forms the `"NaT"` group carrying its sales, where the spec's wording
(nulls excluded before grouping) yields the empty trend. -/
theorem sales_trend_includes_null_dates :
    salesTrend nullDateRows = [("NaT", 100)] ∧
    salesTrendSpec nullDateRows = [] := by decide

theorem salesTrend_map_fst (rows : List Customer) :
    (salesTrend rows).map Prod.fst =
      ((rows.map monthKey).dedup).insertionSort strLe := by
  unfold salesTrend
  rw [List.map_map]
  have hcomp : (Prod.fst ∘ fun k : String =>
      (k, ((rows.filter (fun r => monthKey r == k)).map (·.sales)).sum)) = id := rfl
  rw [hcomp, List.map_id]

/-- C2 (amended): `monthly_sales_trend` groups rows by the month string of
`last_contacted` where a null date yields the group `"NaT"` (included, not
excluded), sums `sales` per group, and returns the groups in ascending
lexicographic order of the month string — real months in ascending calendar
order, with the `"NaT"` group last. -/
theorem monthly_sales_trend_amended (rows : List Customer) :
    List.Sorted strLe ((salesTrend rows).map Prod.fst) ∧
    ((salesTrend rows).map Prod.fst).Nodup ∧
    (∀ k, k ∈ (salesTrend rows).map Prod.fst ↔ ∃ r ∈ rows, monthKey r = k) ∧
    (∀ p ∈ salesTrend rows,
      p.2 = ((rows.filter (fun r => monthKey r == p.1)).map (·.sales)).sum) ∧
    (∀ k ∈ (salesTrend rows).map Prod.fst, strLe k "NaT") := by
  refine ⟨?_, ?_, ?_, ?_, ?_⟩
  · rw [salesTrend_map_fst]
    exact List.sorted_insertionSort strLe _
  · rw [salesTrend_map_fst]
    exact ((List.perm_insertionSort strLe _).nodup_iff).mpr (List.nodup_dedup _)
  · intro k
    rw [salesTrend_map_fst]
    simp [List.mem_insertionSort, List.mem_dedup, List.mem_map]
  · intro p hp
    unfold salesTrend at hp
    obtain ⟨k, _, hpk⟩ := List.mem_map.mp hp
    cases hpk
    rfl
  · intro k hk
    rw [salesTrend_map_fst] at hk
    have : k ∈ rows.map monthKey :=
      List.mem_dedup.mp ((List.mem_insertionSort strLe).mp hk)
    obtain ⟨r, _, hrk⟩ := List.mem_map.mp this
    exact hrk ▸ strLe_monthKey_NaT r

/-! ### Claim C9: the model's parser is sound for the reader's parser -/

theorem isDigitCh_of_digitVal {c : Char} (h : (digitVal? c).isSome = true) :
    isDigitCh c = true := by
  unfold digitVal? at h
  unfold isDigitCh
  split_ifs at h with hc
  · simp only [Bool.and_eq_true, decide_eq_true_eq]
    exact hc
  · simp at h

theorem all_digits_of_parseDigits :
    ∀ {ds : List Char} {vs : List Nat}, parseDigits? ds = some vs →
      ∀ c ∈ ds, isDigitCh c = true := by
  intro ds
  induction ds with
  | nil => intro vs _ c hc; simp at hc
  | cons d t ih =>
    intro vs h c hc
    unfold parseDigits? at h
    cases hv : digitVal? d with
    | none => rw [hv] at h; simp at h
    | some x =>
      rw [hv] at h
      cases hpt : parseDigits? t with
      | none => rw [hpt] at h; simp at h
      | some ys =>
        rcases List.mem_cons.mp hc with hceq | hct
        · subst hceq
          exact isDigitCh_of_digitVal (by rw [hv]; rfl)
        · exact ih hpt c hct

theorem not_space_of_digit {c : Char} (h : isDigitCh c = true) :
    isCellSpace c = false := by
  by_cases h1 : c = ' '
  · subst h1; exact absurd h (by decide)
  · by_cases h2 : c = '\t'
    · subst h2; exact absurd h (by decide)
    · unfold isCellSpace
      simp [h1, h2]

theorem not_sign_of_digit {c : Char} (h : isDigitCh c = true) :
    ¬ (c = '+' ∨ c = '-') := by
  rintro (h1 | h1) <;> subst h1 <;> exact absurd h (by decide)

theorem takeWhile_eq_self_of_all (p : Char → Bool) :
    ∀ cs : List Char, (∀ c ∈ cs, p c = true) → cs.takeWhile p = cs := by
  intro cs
  induction cs with
  | nil => intro _; rfl
  | cons c t ih =>
    intro h
    rw [List.takeWhile_cons_of_pos (h c (List.mem_cons_self c t)),
      ih (fun x hx => h x (List.mem_cons_of_mem c hx))]

theorem dropWhile_eq_nil_of_all (p : Char → Bool) :
    ∀ cs : List Char, (∀ c ∈ cs, p c = true) → cs.dropWhile p = [] := by
  intro cs
  induction cs with
  | nil => intro _; rfl
  | cons c t ih =>
    intro h
    rw [List.dropWhile_cons_of_pos (h c (List.mem_cons_self c t)),
      ih (fun x hx => h x (List.mem_cons_of_mem c hx))]

theorem dropWhile_eq_self_of_all (p : Char → Bool) :
    ∀ cs : List Char, (∀ c ∈ cs, p c = false) → cs.dropWhile p = cs := by
  intro cs h
  cases cs with
  | nil => rfl
  | cons c t =>
    exact List.dropWhile_cons_of_neg (by simp [h c (List.mem_cons_self c t)])

theorem stripSpaces_eq_self {cs : List Char} (h : ∀ c ∈ cs, isCellSpace c = false) :
    stripSpaces cs = cs := by
  unfold stripSpaces
  rw [dropWhile_eq_self_of_all isCellSpace cs h,
    dropWhile_eq_self_of_all isCellSpace cs.reverse
      (fun c hc => h c (List.mem_reverse.mp hc)),
    List.reverse_reverse]

theorem numeralBody_of_digits {ds : List Char} (hne : ds ≠ [])
    (h : ∀ c ∈ ds, isDigitCh c = true) : numeralBody ds = true := by
  have h1 : ds.dropWhile isDigitCh = [] := dropWhile_eq_nil_of_all isDigitCh ds h
  have h2 : ds.takeWhile isDigitCh = ds := takeWhile_eq_self_of_all isDigitCh ds h
  unfold numeralBody
  rw [h1, h2]
  simp [hne]

theorem parseNatChars?_digits {cs : List Char} {m : Nat}
    (h : parseNatChars? cs = some m) :
    cs ≠ [] ∧ ∀ c ∈ cs, isDigitCh c = true := by
  cases cs with
  | nil =>
    rw [show parseNatChars? ([] : List Char) = none from rfl] at h
    exact Option.noConfusion h
  | cons c t =>
    refine ⟨by simp, ?_⟩
    unfold parseNatChars? at h
    cases hpd : parseDigits? (c :: t) with
    | none => rw [hpd] at h; simp at h
    | some vs => exact all_digits_of_parseDigits hpd

/-- A cell this model parses as an integer is one the reader parses too. -/
theorem readerMayCoerce_of_parseInt {s : String} {n : Int}
    (h : parseInt? s = some n) : readerMayCoerce s = true := by
  unfold parseInt? at h
  cases hd : s.data with
  | nil => rw [hd] at h; exact absurd h (by simp [parseIntChars?])
  | cons c cs =>
    rw [hd] at h
    have h' : (if c = '-' then (parseNatChars? cs).map (fun m => -(m : Int))
        else (parseNatChars? (c :: cs)).map (fun m => (m : Int))) = some n := h
    by_cases hc : c = '-'
    · rw [if_pos hc] at h'
      cases hm : parseNatChars? cs with
      | none => rw [hm] at h'; simp at h'
      | some m =>
        obtain ⟨hne, hdig⟩ := parseNatChars?_digits hm
        subst hc
        have hspace : ∀ x ∈ s.data, isCellSpace x = false := by
          rw [hd]
          intro x hx
          rcases List.mem_cons.mp hx with hx | hx
          · subst hx; decide
          · exact not_space_of_digit (hdig x hx)
        unfold readerMayCoerce
        rw [stripSpaces_eq_self hspace, hd]
        have hdrop : dropSign ('-' :: cs) = cs := by simp [dropSign]
        rw [hdrop, numeralBody_of_digits hne hdig]
        rfl
    · rw [if_neg hc] at h'
      cases hm : parseNatChars? (c :: cs) with
      | none => rw [hm] at h'; simp at h'
      | some m =>
        obtain ⟨hne, hdig⟩ := parseNatChars?_digits hm
        have hspace : ∀ x ∈ s.data, isCellSpace x = false := by
          rw [hd]
          intro x hx
          exact not_space_of_digit (hdig x hx)
        unfold readerMayCoerce
        rw [stripSpaces_eq_self hspace, hd]
        have hcd : isDigitCh c = true := hdig c (List.mem_cons_self c cs)
        have hdrop : dropSign (c :: cs) = c :: cs := by
          show (if c = '+' ∨ c = '-' then cs else c :: cs) = c :: cs
          rw [if_neg (not_sign_of_digit hcd)]
        rw [hdrop, numeralBody_of_digits hne hdig]
        rfl

/-- A cell the reader cannot coerce is one this model's parser rejects too:
on such cells both the program and the model coerce to the 0 fallback. -/
theorem parseInt?_eq_none_of_plain {s : String} (h : readerMayCoerce s = false) :
    parseInt? s = none := by
  cases hp : parseInt? s with
  | none => rfl
  | some n => exact absurd (readerMayCoerce_of_parseInt hp) (by simp [h])

theorem le_foldl_max (l : List Int) (a : Int) : a ≤ l.foldl max a := by
  induction l generalizing a with
  | nil => exact le_rfl
  | cons y t ih => exact le_trans (le_max_left a y) (ih (max a y))

theorem mem_le_foldl_max (l : List Int) (a : Int) : ∀ x ∈ l, x ≤ l.foldl max a := by
  induction l generalizing a with
  | nil => intro x hx; simp at hx
  | cons y t ih =>
    intro x hx
    rcases List.mem_cons.mp hx with h | h
    · subst h
      exact le_trans (le_max_right a x) (le_foldl_max t (max a x))
    · exact ih (max a y) x h

theorem mem_le_maxId (rows : List Customer) : ∀ r ∈ rows, r.customer_id ≤ maxId rows := by
  intro r hr
  cases rows with
  | nil => simp at hr
  | cons r0 t =>
    show r.customer_id ≤ (List.map (·.customer_id) t).foldl max r0.customer_id
    rcases List.mem_cons.mp hr with h | h
    · subst h
      exact le_foldl_max _ _
    · exact mem_le_foldl_max _ _ _ (List.mem_map_of_mem _ h)

/-- A successful add preserves both uniqueness invariants: the appended id
exceeds every existing id, and the appended email passed the duplicate
check. -/
theorem uniq_addCustomer {rows : List Customer} {a : AddInput} {out : List Customer}
    (hok : addCustomer rows a = .ok out) (h : Uniq rows) : Uniq out := by
  unfold addCustomer at hok
  split_ifs at hok with h1 h2
  simp only [Except.ok.injEq] at hok
  subst hok
  obtain ⟨hid, hem⟩ := h
  constructor
  · rw [List.map_append]
    rw [List.nodup_append]
    refine ⟨hid, List.nodup_singleton _, ?_⟩
    intro x hx hx2
    simp only [List.map_cons, List.map_nil, List.mem_singleton] at hx2
    subst hx2
    obtain ⟨r, hr, hrid⟩ := List.mem_map.mp hx
    have := mem_le_maxId rows r hr
    rw [hrid] at this
    omega
  · rw [List.map_append]
    rw [List.nodup_append]
    refine ⟨hem, List.nodup_singleton _, ?_⟩
    intro x hx hx2
    simp only [List.map_cons, List.map_nil, List.mem_singleton] at hx2
    subst hx2
    exact h2 hx

/-- Rows at distinct positions carry distinct ids, so a row matching the
selected id is the row `find?` returned. -/
theorem find_eq_of_mem {rows : List Customer} {id : Int} {sel r : Customer}
    (hid : (rows.map (·.customer_id)).Nodup)
    (hfind : rows.find? (fun x => x.customer_id == id) = some sel)
    (hr : r ∈ rows) (hrid : r.customer_id = id) : r = sel := by
  have hsel_mem : sel ∈ rows := List.mem_of_find?_eq_some hfind
  have hsel_id : sel.customer_id = id := by
    have := List.find?_some hfind
    simpa using this
  exact List.inj_on_of_nodup_map hid hr hsel_mem (by rw [hrid, hsel_id])

/-- Replacing the email of the unique id-matching row by a fresh one keeps
the email column duplicate-free. -/
theorem nodup_map_update_email (id : Int) (newE : String) :
    ∀ rows : List Customer,
      (rows.map (·.customer_id)).Nodup →
      (rows.map (·.email)).Nodup →
      newE ∉ rows.map (·.email) →
      (rows.map (fun r => if r.customer_id == id then newE else r.email)).Nodup := by
  intro rows
  induction rows with
  | nil => intro _ _ _; simp
  | cons r t ih =>
    intro hid hem hfresh
    simp only [List.map_cons, List.nodup_cons] at hid hem ⊢
    obtain ⟨hid1, hid2⟩ := hid
    obtain ⟨hem1, hem2⟩ := hem
    simp only [List.map_cons, List.mem_cons] at hfresh
    push_neg at hfresh
    obtain ⟨hfresh1, hfresh2⟩ := hfresh
    constructor
    · by_cases hr : r.customer_id == id
      · rw [if_pos hr]
        intro habs
        obtain ⟨s, hs, hgs⟩ := List.mem_map.mp habs
        by_cases hsid : s.customer_id == id
        · rw [if_pos hsid] at hgs
          have hrid : r.customer_id = id := by simpa using hr
          have hsid2 : s.customer_id = id := by simpa using hsid
          exact hid1 (by
            rw [hrid, ← hsid2]
            exact List.mem_map_of_mem _ hs)
        · rw [if_neg hsid] at hgs
          exact hfresh2 (hgs ▸ List.mem_map_of_mem _ hs)
      · rw [if_neg hr]
        intro habs
        obtain ⟨s, hs, hgs⟩ := List.mem_map.mp habs
        by_cases hsid : s.customer_id == id
        · rw [if_pos hsid] at hgs
          exact hfresh1 hgs
        · rw [if_neg hsid] at hgs
          exact hem1 (hgs ▸ List.mem_map_of_mem _ hs)
    · exact ih hid2 hem2 hfresh2

/-- A successful edit preserves both uniqueness invariants. -/
theorem uniq_editCustomer {rows : List Customer} {id : Int} {e : EditInput}
    {out : List Customer}
    (hok : editCustomer rows id e = .ok out) (h : Uniq rows) : Uniq out := by
  unfold editCustomer at hok
  cases hfind : rows.find? (fun x => x.customer_id == id) with
  | none =>
    rw [hfind] at hok
    simp only [Except.ok.injEq] at hok
    exact hok ▸ h
  | some sel =>
    rw [hfind] at hok
    have hok2 : (if e.email ∈ rows.map (·.email) ∧ e.email ≠ sel.email
        then (Except.error ValError.dupEmail : Except ValError (List Customer))
        else Except.ok (rows.map (fun r => if r.customer_id == id then applyEdit e r else r)))
        = Except.ok out := hok
    clear hok
    split_ifs at hok2 with hcol
    simp only [Except.ok.injEq] at hok2
    subst hok2
    obtain ⟨hid, hem⟩ := h
    have hids : (rows.map
        (fun r => if r.customer_id == id then applyEdit e r else r)).map (·.customer_id) =
        rows.map (·.customer_id) := by
      rw [List.map_map]
      apply List.map_congr_left
      intro r _
      by_cases hr : r.customer_id = id <;> simp [hr, applyEdit]
    constructor
    · rw [hids]
      exact hid
    · push_neg at hcol
      by_cases hmem : e.email ∈ rows.map (·.email)
      · have heq : e.email = sel.email := hcol hmem
        have hsame : (rows.map
            (fun r => if r.customer_id == id then applyEdit e r else r)).map (·.email) =
            rows.map (·.email) := by
          rw [List.map_map]
          apply List.map_congr_left
          intro r hr
          by_cases hrid : r.customer_id = id
          · have hrsel : r = sel := find_eq_of_mem hid hfind hr hrid
            subst hrsel
            simp [hrid, applyEdit, heq]
          · simp [hrid]
        rw [hsame]
        exact hem
      · have hmap : (rows.map
            (fun r => if r.customer_id == id then applyEdit e r else r)).map (·.email) =
            rows.map (fun r => if r.customer_id == id then e.email else r.email) := by
          rw [List.map_map]
          apply List.map_congr_left
          intro r _
          by_cases hrid : r.customer_id = id <;> simp [hrid, applyEdit]
        rw [hmap]
        exact nodup_map_update_email id e.email rows hid hem hmem

/-- C5: starting from a store whose ids and emails are all distinct, any
sequence of add and edit operations (each rejected one a no-op) keeps both
columns duplicate-free. -/
theorem add_edit_preserve_uniqueness (rows : List Customer) (h : Uniq rows)
    (ops : List StoreOp) : Uniq (applyOps rows ops) := by
  suffices haux : ∀ (ops : List StoreOp) (rows : List Customer),
      Uniq rows → Uniq (applyOps rows ops) from haux ops rows h
  intro ops
  induction ops with
  | nil => intro rows h; exact h
  | cons op rest ih =>
    intro rows h
    have hstep : Uniq (applyOp rows op) := by
      cases op with
      | add a =>
        show Uniq (match addCustomer rows a with | .ok r => r | .error _ => rows)
        cases hr : addCustomer rows a with
        | ok r => exact uniq_addCustomer hr h
        | error e => exact h
      | edit id e =>
        show Uniq (match editCustomer rows id e with | .ok r => r | .error _ => rows)
        cases hr : editCustomer rows id e with
        | ok r => exact uniq_editCustomer hr h
        | error err => exact h
    exact ih (applyOp rows op) hstep

/-- Adds and an edit exercising both operations from the empty store. -/
def uniqDemoOps : List StoreOp :=
  [.add ⟨"A", "a@x.com", "", "Lead", 100, ⟨2024, 1, 1⟩⟩,
   .add ⟨"B", "b@x.com", "", "Active", 50, ⟨2024, 2, 2⟩⟩,
   .edit 1 ⟨"A2", "a2@x.com", "", "Inactive", 70, ⟨2024, 3, 3⟩⟩]

/-- C5 witness: the invariant holds after a concrete operation sequence from
the empty (trivially duplicate-free) store. -/
theorem add_edit_preserve_uniqueness_witness : Uniq (applyOps [] uniqDemoOps) :=
  add_edit_preserve_uniqueness [] ⟨List.nodup_nil, List.nodup_nil⟩ uniqDemoOps

end CRM
